import Mathlib

set_option maxRecDepth 100000

/-!
Verification development for the SIE4 accounting-file parser
(tools/sie4_parser.py).  The Python source is shallowly embedded:
strings are Lean strings manipulated as character lists, Python floats
produced by parsing decimal tokens are modelled as exact canonical
decimals (every amount appearing in the claims is exactly representable),
Python dicts are insertion-ordered association lists, and Python
exceptions (IndexError from args[i], ValueError from int()/strptime())
are modelled with an explicit error monad.
-/

namespace SIE4

/-! ## Python-level character and string helpers -/

/-- Python str.isspace for the ASCII range (space, tab, LF, CR, VT, FF);
these are the only whitespace characters reachable from the parser's inputs. -/
def pyIsSpace (c : Char) : Bool :=
  c = ' ' || c = '\t' || c = '\n' || c = '\r' || c.toNat = 11 || c.toNat = 12

/-- ASCII digit test, matching the regex class [0-9]. -/
def isDigitChar (c : Char) : Bool :=
  48 ≤ c.toNat && c.toNat ≤ 57

/-- Numeric value of an ASCII digit character. -/
def digitVal (c : Char) : Nat := c.toNat - 48

/-- Python str.strip on a character list. -/
def stripList (l : List Char) : List Char :=
  ((l.dropWhile pyIsSpace).reverse.dropWhile pyIsSpace).reverse

/-- Python str.strip. -/
def pyStrip (s : String) : String := String.mk (stripList s.data)

/-- Nat denoted by a list of ASCII digits, most significant first. -/
def natOfDigits (l : List Char) : Nat :=
  l.foldl (fun a c => 10 * a + digitVal c) 0

/-- Join a list of strings with single spaces (Python str.join). -/
def joinSp : List String → String
  | [] => ""
  | [x] => x
  | x :: r => x ++ " " ++ joinSp r

/-- True when the line starts with the comment marker of two semicolons. -/
def isCommentL (s : String) : Bool :=
  match s.data with
  | ';' :: ';' :: _ => true
  | _ => false

/-! ## Line normalizer: text.replace CRLF/CR with LF, split on LF -/

/-- Normalize line endings: CRLF and bare CR both become LF. -/
def normChars : List Char → List Char
  | [] => []
  | '\r' :: '\n' :: t => '\n' :: normChars t
  | '\r' :: t => '\n' :: normChars t
  | c :: t => c :: normChars t

/-- Split a character list on LF; like Python str.split this yields one
(possibly empty) piece more than the number of separators. -/
def splitLinesL : List Char → List (List Char)
  | [] => [[]]
  | '\n' :: t => [] :: splitLinesL t
  | c :: t =>
    match splitLinesL t with
    | h :: r => (c :: h) :: r
    | [] => [[c]]

/-- Embedding of SIE4Parser._normalize_lines. -/
def normalizeLines (s : String) : List String :=
  (splitLinesL (normChars s.data)).map String.mk

/-! ## Command tokenizer (SIE4Parser._split_command) -/

/-- Quote-aware argument tokenizer: the while-loop body of _split_command.
A quoted run becomes one token with its quotes retained; an unterminated
quoted run is closed with a synthesized quote; unquoted runs of
non-whitespace are atomic tokens. -/
def splitArgsGo : Nat → List Char → List String
  | _, [] => []
  | 0, _ :: _ => []
  | fuel + 1, c :: t =>
    if pyIsSpace c then splitArgsGo fuel t
    else if c = '"' || c = '\'' then
      let buf := t.takeWhile (fun x => x ≠ c)
      String.mk (c :: (buf ++ [c])) :: splitArgsGo fuel ((t.drop buf.length).drop 1)
    else
      let tok := (c :: t).takeWhile (fun x => !pyIsSpace x)
      String.mk tok :: splitArgsGo fuel ((c :: t).drop tok.length)

/-- Tokenizer entry point; the loop consumes at least one character per
iteration, so the input length is enough fuel. -/
def splitArgs (l : List Char) : List String := splitArgsGo l.length l

/-- Command-keyword characters: the regex class [A-Z0-9] under IGNORECASE. -/
def isCmdChar (c : Char) : Bool :=
  isDigitChar c || (65 ≤ c.toNat && c.toNat ≤ 90) || (97 ≤ c.toNat && c.toNat ≤ 122)

/-- ASCII uppercase of one character (Python str.upper on the reachable
command alphabet). -/
def asciiUpper (c : Char) : Char :=
  if 97 ≤ c.toNat && c.toNat ≤ 122 then Char.ofNat (c.toNat - 32) else c

/-- Embedding of SIE4Parser._split_command: match the stripped line against
the pattern of a hash mark, a nonempty alphanumeric keyword, optional
whitespace and the rest; on failure return the line itself with no
arguments, on success return the uppercased keyword and the tokenized rest. -/
def splitCommand (s : String) : String × List String :=
  match s.data with
  | '#' :: rest =>
    let kw := rest.takeWhile isCmdChar
    if kw = [] then (s, [])
    else
      let after := (rest.drop kw.length).dropWhile pyIsSpace
      (String.mk ('#' :: kw.map asciiUpper), splitArgs after)
  | _ => (s, [])

/-! ## Quoted tokens (SIE4Parser._is_quoted, _strip_quotes) -/

/-- Embedding of _is_quoted: length at least 2, first character a quote,
last character equal to the first. -/
def isQuoted (s : String) : Bool :=
  match s.data with
  | [] => false
  | [_] => false
  | c :: t =>
    (c = '"' || c = '\'') &&
      (match (c :: t).getLast? with
       | some b => b = c
       | none => false)

/-- Embedding of _strip_quotes: drop the surrounding quotes when present. -/
def stripQuotes (s : String) : String :=
  if isQuoted s then String.mk (s.data.drop 1).dropLast else s

/-! ## Numeric tokens (_num_re and _first_number) -/

/-- Tail of the signed-decimal regex: one or more digits, optionally a dot
or comma followed by one or more digits, and nothing else. -/
def matchNumTail (l : List Char) : Bool :=
  let ip := l.takeWhile isDigitChar
  if ip = [] then false
  else
    match l.drop ip.length with
    | [] => true
    | sep :: frac => (sep = '.' || sep = ',') && frac ≠ [] && frac.all isDigitChar

/-- Embedding of the compiled pattern _num_re: an optional sign, digits,
and an optional dot-or-comma fraction. -/
def numRe (s : String) : Bool :=
  match s.data with
  | [] => false
  | c :: t => if c = '+' || c = '-' then matchNumTail t else matchNumTail (c :: t)

/-- Exact decimal number in canonical form (no trailing zeros in the
fractional part), standing for mantissa over ten to the scale.  Every
amount token the parser accepts denotes such a decimal, and two canonical
decimals are equal exactly when their values are; this models the Python
float amounts exactly on all claim-relevant values. -/
structure Dec where
  man : Int
  scale : Nat
deriving DecidableEq, Repr

/-- Strip factors of ten shared by the mantissa and the scale, producing
the canonical form. -/
def stripZeros : Int → Nat → Int × Nat
  | m, 0 => (m, 0)
  | m, s + 1 => if m % 10 = 0 then stripZeros (m / 10) s else (m, s + 1)

/-- Canonical decimal with the given raw mantissa and scale. -/
def mkDec (m : Int) (s : Nat) : Dec :=
  let p := stripZeros m s
  ⟨p.1, p.2⟩

/-- Rational value denoted by a decimal (for documentation; the parser
itself only stores and compares amounts). -/
def Dec.val (d : Dec) : ℚ := (d.man : ℚ) / (10 ^ d.scale : ℚ)

/-- Exact value of an unsigned decimal token (digits, optional separator,
fraction digits). -/
def parseUnsigned (l : List Char) : Dec :=
  let ip := l.takeWhile isDigitChar
  match l.drop ip.length with
  | [] => mkDec (natOfDigits ip : Int) 0
  | _ :: frac =>
    mkDec ((natOfDigits ip : Int) * (10 ^ frac.length : Int) + (natOfDigits frac : Int))
      frac.length

/-- Exact value of a signed decimal token; models Python
float(token.replace(comma, dot)) on tokens matching _num_re. -/
def parseDecimal (l : List Char) : Dec :=
  match l with
  | [] => ⟨0, 0⟩
  | c :: t =>
    if c = '-' then
      let d := parseUnsigned t
      ⟨-d.man, d.scale⟩
    else if c = '+' then parseUnsigned t
    else parseUnsigned (c :: t)

/-- Value of a token, after Python str.strip as in _first_number. -/
def tokenValue (t : String) : Dec := parseDecimal (pyStrip t).data

/-- Loop body of _first_number: skip bracket noise, return the value of
the first token matching the numeric pattern. -/
def firstNum : List String → Option Dec
  | [] => none
  | t :: rest =>
    let tt := pyStrip t
    if tt = "\x7b" || tt = "\x7d" || tt = "\x7b\x7d" then firstNum rest
    else if numRe tt then some (parseDecimal tt.data)
    else firstNum rest

/-- Embedding of _first_number with its start index. -/
def firstNumber (args : List String) (startIdx : Nat) : Option Dec :=
  firstNum (args.drop startIdx)

/-! ## Python errors, int() and list indexing -/

/-- Python exceptions propagated by the parser: IndexError from indexing a
too-short argument list and ValueError from int() and strptime(). -/
inductive PyErr where
  | indexError : PyErr
  | valueError : String → PyErr
deriving DecidableEq, Repr

/-- Digits-with-underscores body of a Python int literal: digits, with
single underscores allowed between digits. -/
def digitsUnd : Nat → List Char → Option Nat
  | acc, [] => some acc
  | acc, '_' :: c :: t => if isDigitChar c then digitsUnd (10 * acc + digitVal c) t else none
  | _, ['_'] => none
  | acc, c :: t => if isDigitChar c then digitsUnd (10 * acc + digitVal c) t else none

/-- Unsigned part of Python int(): nonempty digits, underscores between. -/
def pyIntUnsigned (l : List Char) : Option Nat :=
  match l with
  | [] => none
  | c :: t => if isDigitChar c then digitsUnd (digitVal c) t else none

/-- Embedding of Python int() on a token: optional surrounding whitespace,
optional sign, digits; anything else raises ValueError. -/
def pyInt (s : String) : Except PyErr Int :=
  match stripList s.data with
  | '+' :: t =>
    match pyIntUnsigned t with
    | some n => .ok (n : Int)
    | none => .error (.valueError "invalid literal for int")
  | '-' :: t =>
    match pyIntUnsigned t with
    | some n => .ok (-(n : Int))
    | none => .error (.valueError "invalid literal for int")
  | l =>
    match pyIntUnsigned l with
    | some n => .ok (n : Int)
    | none => .error (.valueError "invalid literal for int")

/-- Python args[i] for a nonnegative index. -/
def listGet (l : List String) (i : Nat) : Except PyErr String :=
  match l.get? i with
  | some x => .ok x
  | none => .error .indexError

/-! ## Dates (_parse_date via datetime.strptime with format %Y%m%d) -/

/-- Calendar date produced by datetime.date. -/
structure Date where
  year : Nat
  month : Nat
  day : Nat
deriving DecidableEq, Repr

/-- Gregorian leap-year rule used by datetime. -/
def isLeap (y : Nat) : Bool :=
  y % 4 = 0 && (y % 100 ≠ 0 || y % 400 = 0)

/-- Days in a month as validated by the datetime constructor. -/
def daysInMonth (y m : Nat) : Nat :=
  if m = 2 then (if isLeap y then 29 else 28)
  else if m = 4 || m = 6 || m = 9 || m = 11 then 30
  else 31

/-- Day group of the strptime regex for the percent-d directive, the
ordered alternation of thirty-or-thirtyone, ten-to-twentynine,
zero-prefixed one-to-nine, and bare one-to-nine; returns the first
alternative that matches together with the remaining characters. -/
def dAlts : List Char → Option (Nat × List Char)
  | [] => none
  | [a] => if 49 ≤ a.toNat && a.toNat ≤ 57 then some (digitVal a, []) else none
  | a :: b :: t =>
    if a.toNat = 51 && (b.toNat = 48 || b.toNat = 49) then some (30 + digitVal b, t)
    else if (a.toNat = 49 || a.toNat = 50) && isDigitChar b then
      some (10 * digitVal a + digitVal b, t)
    else if a.toNat = 48 && (49 ≤ b.toNat && b.toNat ≤ 57) then some (digitVal b, t)
    else if 49 ≤ a.toNat && a.toNat ≤ 57 then some (digitVal a, b :: t)
    else none

/-- Month group of the strptime regex for the percent-m directive: the
ordered list of alternatives (ten-to-twelve, zero-prefixed one-to-nine,
bare one-to-nine) that structurally match, each with its remainder. -/
def mAlts : List Char → List (Nat × List Char)
  | [] => []
  | [a] => if 49 ≤ a.toNat && a.toNat ≤ 57 then [(digitVal a, [])] else []
  | a :: b :: t =>
    (if a.toNat = 49 && (48 ≤ b.toNat && b.toNat ≤ 50) then [(10 + digitVal b, t)] else []) ++
    (if a.toNat = 48 && (49 ≤ b.toNat && b.toNat ≤ 57) then [(digitVal b, t)] else []) ++
    (if 49 ≤ a.toNat && a.toNat ≤ 57 then [(digitVal a, b :: t)] else [])

/-- Backtracking month-then-day match: the first month alternative under
which the day group also matches, exactly the order the regex engine
explores. -/
def mdMatch (l : List Char) : Option (Nat × Nat × List Char) :=
  (mAlts l).findSome? (fun p => (dAlts p.2).map (fun q => (p.1, q.1, q.2)))

/-- Embedding of datetime.strptime(s, percent-Y-m-d) followed by the date
constructor: four digit year, backtracking month/day match, the whole
string must be consumed, and the calendar bounds must hold. -/
def strptimeYmd (l : List Char) : Except PyErr Date :=
  match l with
  | y1 :: y2 :: y3 :: y4 :: rest =>
    if isDigitChar y1 && isDigitChar y2 && isDigitChar y3 && isDigitChar y4 then
      match mdMatch rest with
      | none => .error (.valueError "time data does not match format")
      | some (m, d, rest2) =>
        if rest2 = [] then
          let y := natOfDigits [y1, y2, y3, y4]
          if 1 ≤ y ∧ d ≤ daysInMonth y m then .ok ⟨y, m, d⟩
          else .error (.valueError "day is out of range for month")
        else .error (.valueError "unconverted data remains")
    else .error (.valueError "time data does not match format")
  | _ => .error (.valueError "time data does not match format")

/-- Embedding of SIE4Parser._parse_date: strip all non-digit characters,
then parse the remaining digits with strptime. -/
def parse_date (s : String) : Except PyErr Date :=
  strptimeYmd (s.data.filter isDigitChar)

/-! ## Domain model -/

/-- Embedding of the Account dataclass.  The parent back-reference and the
children list are represented by account keys (the parser only ever links
accounts stored in the company map under their own number). -/
structure Account where
  number : String
  name : String := ""
  parent : Option String := none
  children : List String := []
  sru : Option String := none
  opening_balance : Option Dec := none
  closing_balance : Option Dec := none
deriving DecidableEq, Repr

/-- Embedding of the Transaction dataclass. -/
structure Transaction where
  account : String
  amount : Dec
  dim : Option (List String) := none
  text : Option String := none
deriving DecidableEq, Repr

/-- Embedding of the Voucher dataclass. -/
structure Voucher where
  series : String
  number : String
  date : Date
  text : String := ""
  reg_date : Option Date := none
  transactions : List Transaction := []
deriving DecidableEq, Repr

/-- Embedding of the RAR (fiscal year) dataclass. -/
structure RAR where
  idx : Int
  start : Date
  stop : Date
deriving DecidableEq, Repr

/-- Insertion-ordered association list standing for the Python dict of
accounts. -/
abbrev AList := List (String × Account)

/-- Python dict lookup: value of the first entry with the given key. -/
def dget : AList → String → Option Account
  | [], _ => none
  | e :: t, k => if e.1 = k then some e.2 else dget t k

/-- Python dict item assignment: replace the entry in place when the key
exists, otherwise append a new entry at the end. -/
def dset : AList → String → Account → AList
  | [], k, v => [(k, v)]
  | e :: t, k, v => if e.1 = k then (k, v) :: t else e :: dset t k v

/-- Keys of an association list in insertion order. -/
def keysOf (m : AList) : List String := m.map (fun e => e.1)

/-- Embedding of the Company dataclass (the ledger aggregate root). -/
structure Company where
  orgnr : Option String := none
  name : Option String := none
  program : Option String := none
  sietyp : Option String := none
  format : Option String := none
  generated : Option Date := none
  rars : List RAR := []
  accounts : AList := []
  vouchers : List Voucher := []
  source_encoding : Option String := none
deriving DecidableEq, Repr

/-- The freshly constructed empty company. -/
def emptyCompany : Company := {}

/-! ## Account hierarchy builder (_build_account_hierarchy) -/

/-- Python str.isdigit: nonempty and all characters digits. -/
def isPyDigitStr (s : String) : Bool :=
  !s.data.isEmpty && s.data.all isDigitChar

/-- First n characters of a string (Python slicing). -/
def strTake (n : Nat) (s : String) : String := String.mk (s.data.take n)

/-- Candidate parent prefixes, longest first, exactly as the source
chooses them by key length. -/
def prefsOf (num : String) : List String :=
  if 4 ≤ num.length then [strTake 3 num, strTake 2 num, strTake 1 num]
  else if num.length = 3 then [strTake 2 num, strTake 1 num]
  else [strTake 1 num]

/-- Inner prefix loop of the hierarchy builder: find the first prefix
whose account exists, is a different entry, while the child still has no
parent; link parent and append the child to its children unless already
present.  Object identity of dict values is represented by key equality. -/
def tryAssign (m : AList) (num : String) : List String → AList
  | [] => m
  | p :: rest =>
    match dget m p with
    | none => tryAssign m num rest
    | some par =>
      match dget m num with
      | none => tryAssign m num rest
      | some acc =>
        if p ≠ num ∧ acc.parent = none then
          let m1 := dset m num { acc with parent := some p }
          if num ∈ par.children then m1
          else dset m1 p { par with children := par.children ++ [num] }
        else tryAssign m num rest

/-- One iteration of the hierarchy builder's main loop for the key num. -/
def hierStep (m : AList) (num : String) : AList :=
  if !isPyDigitStr num || num.length = 1 then m
  else tryAssign m num (prefsOf num)

/-- Final loop forcing every single-digit numeric account to be a root. -/
def forceRoots (m : AList) : AList :=
  m.map (fun e =>
    if isPyDigitStr e.1 && e.1.length = 1 then (e.1, { e.2 with parent := none }) else e)

/-- Embedding of _build_account_hierarchy: the main loop over a snapshot
of the keys, then the root-forcing loop. -/
def buildHierarchy (m : AList) : AList :=
  forceRoots ((keysOf m).foldl hierStep m)

/-! ## Parser state machine (_parse_lines) -/

/-- Number-or-skip handling shared by the IB command: set the opening
balance of the (lazily created) account when a number is found. -/
def cmdIB (c : Company) (cur : Option Voucher) (args : List String) :
    Except PyErr (Company × Option Voucher) :=
  match args with
  | [] => .error .indexError
  | a0 :: rest =>
    match firstNum rest with
    | none => .ok (c, cur)
    | some amt =>
      let acc := (dget c.accounts a0).getD { number := a0 }
      .ok ({ c with accounts := dset c.accounts a0 { acc with opening_balance := some amt } }, cur)

/-- UB command: set the closing balance when a number is found. -/
def cmdUB (c : Company) (cur : Option Voucher) (args : List String) :
    Except PyErr (Company × Option Voucher) :=
  match args with
  | [] => .error .indexError
  | a0 :: rest =>
    match firstNum rest with
    | none => .ok (c, cur)
    | some amt =>
      let acc := (dget c.accounts a0).getD { number := a0 }
      .ok ({ c with accounts := dset c.accounts a0 { acc with closing_balance := some amt } }, cur)

/-- KONTO command: lazily create the account and set its name when the
given name is nonempty. -/
def cmdKONTO (c : Company) (cur : Option Voucher) (args : List String) :
    Except PyErr (Company × Option Voucher) :=
  match args with
  | [] => .error .indexError
  | a0 :: rest =>
    let accName := match rest.head? with
      | some a1 => stripQuotes a1
      | none => ""
    let acc := (dget c.accounts a0).getD { number := a0 }
    let acc2 := { acc with name := if accName ≠ "" then accName else acc.name }
    .ok ({ c with accounts := dset c.accounts a0 acc2 }, cur)

/-- SRU command: record the SRU code when both arguments are present. -/
def cmdSRU (c : Company) (cur : Option Voucher) (args : List String) :
    Except PyErr (Company × Option Voucher) :=
  match args with
  | a0 :: a1 :: _ =>
    let acc := (dget c.accounts a0).getD { number := a0 }
    .ok ({ c with accounts := dset c.accounts a0 { acc with sru := some a1 } }, cur)
  | _ => .ok (c, cur)

/-- RAR command, mirroring the evaluation order int(args[0]),
parse_date(args[1]), parse_date(args[2]). -/
def cmdRAR (c : Company) (cur : Option Voucher) (args : List String) :
    Except PyErr (Company × Option Voucher) :=
  match args with
  | [] => .error .indexError
  | a0 :: rest0 =>
    match pyInt a0 with
    | .error e => .error e
    | .ok i =>
      match rest0 with
      | [] => .error .indexError
      | a1 :: rest1 =>
        match parse_date a1 with
        | .error e => .error e
        | .ok s =>
          match rest1 with
          | [] => .error .indexError
          | a2 :: _ =>
            match parse_date a2 with
            | .error e => .error e
            | .ok en => .ok ({ c with rars := c.rars ++ [⟨i, s, en⟩] }, cur)

/-- Voucher fields read by the VER branch from its argument list. -/
def verVoucher (args : List String) : Except PyErr Voucher :=
  match args with
  | a0 :: a1 :: a2 :: rest3 =>
    match parse_date a2 with
    | .error e => .error e
    | .ok d =>
      let txt := match rest3.head? with
        | some a3 => stripQuotes a3
        | none => ""
      match rest3.get? 1 with
      | some a4 =>
        match parse_date a4 with
        | .error e => .error e
        | .ok rd => .ok ⟨a0, a1, d, txt, some rd, []⟩
      | none => .ok ⟨a0, a1, d, txt, none, []⟩
  | _ => .error .indexError

/-- VER command: the parsed header becomes the pending voucher, replacing
any previous one. -/
def cmdVER (c : Company) (args : List String) :
    Except PyErr (Company × Option Voucher) :=
  match verVoucher args with
  | .error e => .error e
  | .ok v => .ok (c, some v)

/-- Dimension tokens kept by the TRANS branch: everything after the
account key that matches neither the numeric pattern nor is quoted nor
bracket noise, verbatim and in order. -/
def dimsFilter (rest : List String) : List String :=
  rest.filter (fun a => !numRe a && !isQuoted a && a ≠ "\x7b" && a ≠ "\x7d" && a ≠ "\x7b\x7d")

/-- TRANS command: dropped without a pending voucher or without a numeric
amount token; otherwise append the transaction built from the account
key, the matched amount, the first quoted token and the dimension
tokens. -/
def cmdTRANS (c : Company) (cur : Option Voucher) (args : List String) :
    Except PyErr (Company × Option Voucher) :=
  match cur with
  | none => .ok (c, none)
  | some v =>
    match args with
    | [] => .error .indexError
    | a0 :: rest =>
      match firstNum rest with
      | none => .ok (c, some v)
      | some amt =>
        let txText := (rest.find? (fun t => isQuoted t)).map stripQuotes
        let dims := dimsFilter rest
        let tx : Transaction :=
          ⟨a0, amt, if dims = [] then none else some dims, txText⟩
        .ok (c, some { v with transactions := v.transactions ++ [tx] })

/-- GEN command: parse the generation date when an argument is given. -/
def cmdGEN (c : Company) (cur : Option Voucher) (args : List String) :
    Except PyErr (Company × Option Voucher) :=
  match args with
  | [] => .ok ({ c with generated := none }, cur)
  | a :: _ =>
    match parse_date a with
    | .error e => .error e
    | .ok d => .ok ({ c with generated := some d }, cur)

/-- Command dispatch of _parse_lines, in source order, with the explicit
catch-all ignore arm. -/
def runCmd (c : Company) (cur : Option Voucher) (cmd : String) (args : List String) :
    Except PyErr (Company × Option Voucher) :=
  match cmd with
  | "#FLAGGA" => .ok (c, cur)
  | "#PROGRAM" =>
    .ok ({ c with program := some (pyStrip (joinSp (args.filter (fun a => a ≠ "")))) }, cur)
  | "#FORMAT" => .ok ({ c with format := args.head? }, cur)
  | "#GEN" => cmdGEN c cur args
  | "#SIETYP" => .ok ({ c with sietyp := args.head? }, cur)
  | "#ORGNR" => .ok ({ c with orgnr := args.head? }, cur)
  | "#FNAMN" => .ok ({ c with name := args.head?.map stripQuotes }, cur)
  | "#RAR" => cmdRAR c cur args
  | "#KONTO" => cmdKONTO c cur args
  | "#SRU" => cmdSRU c cur args
  | "#IB" => cmdIB c cur args
  | "#UB" => cmdUB c cur args
  | "#VER" => cmdVER c args
  | "#TRANS" => cmdTRANS c cur args
  | _ => .ok (c, cur)

/-- One iteration of the line loop of _parse_lines: strip, skip blanks and
comments, handle the block delimiters, drop non-command lines, then
dispatch on the tokenized command. -/
def stepLine (c : Company) (cur : Option Voucher) (raw : String) :
    Except PyErr (Company × Option Voucher) :=
  let line := pyStrip raw
  if line = "" then .ok (c, cur)
  else if isCommentL line then .ok (c, cur)
  else if line = "\x7b" then .ok (c, cur)
  else if line = "\x7d" then
    match cur with
    | some v => .ok ({ c with vouchers := c.vouchers ++ [v] }, none)
    | none => .ok (c, cur)
  else if line.data.head? ≠ some '#' then .ok (c, cur)
  else
    let p := splitCommand line
    runCmd c cur p.1 p.2

/-- Finalization of _parse_lines with the default hierarchy inference:
run the account hierarchy builder when the account map is nonempty. -/
def finalize (c : Company) : Company :=
  if c.accounts = [] then c else { c with accounts := buildHierarchy c.accounts }

/-- Remaining line loop of _parse_lines from an intermediate state. -/
def parseLinesFrom (c : Company) (cur : Option Voucher) : List String → Except PyErr Company
  | [] => .ok (finalize c)
  | l :: rest =>
    match stepLine c cur l with
    | .error e => .error e
    | .ok s => parseLinesFrom s.1 s.2 rest

/-- Embedding of _parse_lines on a list of lines. -/
def parse_lines (lines : List String) : Except PyErr Company :=
  parseLinesFrom emptyCompany none lines

/-- Embedding of parse_text: normalize the line endings and parse. -/
def parse_text (s : String) : Except PyErr Company :=
  parse_lines (normalizeLines s)

/-! ## Encoding resolver (_decode_with_guess) -/

/-- A candidate encoding as the resolver sees it: a name and a decoder
that either succeeds with a text or fails (a failure also stands for a
codec lookup error on an unknown encoding name, which the resolver's
bare except absorbs the same way). -/
structure Encoding where
  name : String
  decode : List Nat → Option String

/-- Total fallback decoder: latin-1 with replacement; every byte maps to
the code point of the same value, so it never fails. -/
def latin1Replace (data : List Nat) : String :=
  String.mk (data.map Char.ofNat)

/-- Embedding of _decode_with_guess: try the candidates strictly in
order, return the first successful decode with that encoding's name, and
fall back to the permissive latin-1 decode with its fixed label. -/
def decode_with_guess (data : List Nat) : List Encoding → String × String
  | [] => (latin1Replace data, "latin1-replace")
  | e :: rest =>
    match e.decode data with
    | some t => (t, e.name)
    | none => decode_with_guess data rest

/-! ## Claim-side (specification) functions -/

/-- Command keyword the dispatcher will see for a raw line. -/
def cmdOf (raw : String) : String := (splitCommand (pyStrip raw)).1

/-- Commands whose branches can raise (dates, int conversion, or indexing
a too-short argument list); every other command's branch always
returns. -/
def riskyCmds : List String :=
  ["#GEN", "#RAR", "#KONTO", "#IB", "#UB", "#VER", "#TRANS"]

/-- Parent candidate as the specification describes it: for a purely
numeric key of length at least two, the first prefix (longest to
shortest) that is a key of the map and is not the account itself. -/
def candScan (keys : List String) (num : String) : List String → Option String
  | [] => none
  | p :: rest => if p ∈ keys ∧ p ≠ num then some p else candScan keys num rest

/-- Specification-side first matching parent candidate of an account. -/
def candParent (keys : List String) (num : String) : Option String :=
  if isPyDigitStr num ∧ 2 ≤ num.length then candScan keys num (prefsOf num)
  else none

/-- Parent key recorded for an account key, if any. -/
def parentAt (m : AList) (k : String) : Option String :=
  (dget m k).bind (fun a => a.parent)

/-- Children recorded for an account key. -/
def childrenAt (m : AList) (k : String) : List String :=
  ((dget m k).map (fun a => a.children)).getD []

/-- Invariant of the hierarchy builder's main loop: after processing the
keys in done (a prefix of the key list K of the map), every processed
numeric account points at its first matching parent candidate, every
unprocessed account is still unlinked, and every account's child list
holds exactly the processed accounts whose candidate it is, in encounter
order. -/
def HierInv (K done : List String) (m : AList) : Prop :=
  keysOf m = K ∧
  (∀ e ∈ m, e.2.parent = if e.1 ∈ done then candParent K e.1 else none) ∧
  (∀ e ∈ m, e.2.children = done.filter (fun c => candParent K c = some e.1))

/-- Every purely numeric account of length at least two that has a
matching parent candidate has been linked. -/
def StableAssigned (m : AList) : Prop :=
  ∀ e ∈ m, isPyDigitStr e.1 = true → 2 ≤ e.1.length →
    candParent (keysOf m) e.1 ≠ none → e.2.parent ≠ none

/-- Every single-digit numeric account is a root. -/
def StableRoots (m : AList) : Prop :=
  ∀ e ∈ m, (isPyDigitStr e.1 && e.1.length = 1) = true → e.2.parent = none

/-- Concrete four-account chart from the specification's hierarchy
example, in encounter order. -/
def ex4 : AList :=
  [("1", { number := "1" }), ("19", { number := "19" }),
   ("1930", { number := "1930" }), ("1931", { number := "1931" })]

end SIE4

namespace SIE4

/-! ## Routing lemmas for the state machine -/

theorem data_head_of_splitCommand {s cmd : String} {args : List String}
    (h : splitCommand s = (cmd, args)) (hc : cmd.data.head? = some '#') :
    s.data.head? = some '#' := by
  unfold splitCommand at h
  split at h
  · next rest heq => rw [heq]; rfl
  · rw [show s = cmd from congrArg Prod.fst h]
    exact hc

theorem stepLine_eq_runCmd (c : Company) (cur : Option Voucher) (raw : String)
    (h : (pyStrip raw).data.head? = some '#') :
    stepLine c cur raw =
      runCmd c cur (splitCommand (pyStrip raw)).1 (splitCommand (pyStrip raw)).2 := by
  obtain ⟨t, ht⟩ : ∃ t, (pyStrip raw).data = '#' :: t := by
    cases hd : (pyStrip raw).data with
    | nil => rw [hd] at h; exact absurd h (by simp)
    | cons a t =>
      rw [hd] at h
      simp only [List.head?_cons, Option.some.injEq] at h
      exact ⟨t, by rw [h]⟩
  have h1 : ¬(pyStrip raw = "") := by
    intro he
    rw [he] at ht
    exact absurd ht (by simp)
  have h2 : ¬(isCommentL (pyStrip raw) = true) := by
    unfold isCommentL
    rw [ht]
    simp
  have h3 : ¬(pyStrip raw = "\x7b") := by
    intro he
    rw [he] at ht
    exact absurd ht (by simp)
  have h4 : ¬(pyStrip raw = "\x7d") := by
    intro he
    rw [he] at ht
    exact absurd ht (by simp)
  have h5 : ¬((pyStrip raw).data.head? ≠ some '#') := by
    rw [ht]
    simp
  unfold stepLine
  rw [if_neg h1, if_neg h2, if_neg h3, if_neg h4, if_neg h5]

theorem runCmd_IB (c : Company) (cur : Option Voucher) (args : List String) :
    runCmd c cur "#IB" args = cmdIB c cur args := rfl

theorem runCmd_UB (c : Company) (cur : Option Voucher) (args : List String) :
    runCmd c cur "#UB" args = cmdUB c cur args := rfl

theorem runCmd_VER (c : Company) (cur : Option Voucher) (args : List String) :
    runCmd c cur "#VER" args = cmdVER c args := rfl

theorem runCmd_TRANS (c : Company) (cur : Option Voucher) (args : List String) :
    runCmd c cur "#TRANS" args = cmdTRANS c cur args := rfl

theorem stepLine_of_cmd {raw : String} (c : Company) (cur : Option Voucher)
    {cmd : String} {args : List String}
    (hs : splitCommand (pyStrip raw) = (cmd, args)) (hc : cmd.data.head? = some '#') :
    stepLine c cur raw = runCmd c cur cmd args := by
  rw [stepLine_eq_runCmd c cur raw (data_head_of_splitCommand hs hc), hs]

theorem runCmd_isOk_of_not_risky (c : Company) (cur : Option Voucher) (cmd : String)
    (args : List String) (h : cmd ∉ riskyCmds) : (runCmd c cur cmd args).isOk = true := by
  unfold runCmd
  split
  all_goals first
    | rfl
    | exact absurd (by decide) h
    | (unfold cmdSRU ; rcases args with _ | ⟨a0, _ | ⟨a1, r⟩⟩ <;> rfl)

theorem stepLine_isOk_of_not_risky (c : Company) (cur : Option Voucher) (raw : String)
    (h : cmdOf raw ∉ riskyCmds) : (stepLine c cur raw).isOk = true := by
  simp only [stepLine]
  split_ifs with h1 h2 h3 h4 h5
  · rfl
  · rfl
  · rfl
  · cases cur <;> rfl
  · rfl
  · exact runCmd_isOk_of_not_risky c cur _ _ h

/-- Claim C1 counterexample: parsing the claimed voucher text as one single
line leaves the voucher pending and uncommitted (the braces are mere tokens
of the header line), so the resulting voucher list is empty rather than a
singleton. -/
theorem claim_C1_counterexample :
    (parse_text "#VER A 1 20240110 \"Text\" 20240110 \x7b #TRANS 1930 -1000.00 \"t\" \x7d").map
      Company.vouchers = Except.ok [] := by rfl

/-- Claim C1 (amended): with the block delimiters and the transaction on
lines of their own, parsing yields exactly one voucher with series A,
number 1, date 2024-01-10 and exactly one transaction on account 1930 of
amount -1000.00 with note text t; parsed as one single line, the header
merely becomes the pending voucher and the ledger's voucher list stays
empty. -/
theorem claim_C1_theorem :
    parse_text "#VER A 1 20240110 \"Text\" 20240110\n\x7b\n#TRANS 1930 -1000.00 \"t\"\n\x7d" =
      Except.ok { vouchers := [⟨"A", "1", ⟨2024, 1, 10⟩, "Text", some ⟨2024, 1, 10⟩,
        [⟨"1930", ⟨-1000, 0⟩, none, some "t"⟩]⟩] } ∧
    stepLine emptyCompany none
        "#VER A 1 20240110 \"Text\" 20240110 \x7b #TRANS 1930 -1000.00 \"t\" \x7d" =
      Except.ok (emptyCompany, some ⟨"A", "1", ⟨2024, 1, 10⟩, "Text", some ⟨2024, 1, 10⟩, []⟩) :=
  ⟨rfl, rfl⟩

/-- Claim C2 counterexample: a bare KONTO command raises an index error
from its empty argument list, a hard failure that is not a malformed
required date, so the malformed-date condition is not the only one that
aborts the parse, and a short argument list is not absorbed. -/
theorem claim_C2_counterexample :
    parse_text "#KONTO" = Except.error PyErr.indexError := by rfl

/-- Claim C2 (amended): commands with too-short argument lists (or a
non-integer fiscal-year index) also propagate hard failures, besides
malformed required dates.  The genuinely absorbed conditions hold: every
command outside the risky set always returns, an orphan transaction is
dropped, a balance command with an account key but no numeric token is
dropped leaving the state unchanged, and unmatched block delimiters are
no-ops. -/
theorem claim_C2_theorem :
    (∀ (c : Company) (cur : Option Voucher) (raw : String),
        cmdOf raw ∉ riskyCmds → (stepLine c cur raw).isOk = true) ∧
    (∀ (c : Company) (raw : String) (args : List String),
        splitCommand (pyStrip raw) = ("#TRANS", args) →
        stepLine c none raw = Except.ok (c, none)) ∧
    (∀ (c : Company) (cur : Option Voucher) (raw : String) (a0 : String) (rest : List String),
        splitCommand (pyStrip raw) = ("#IB", a0 :: rest) → firstNum rest = none →
        stepLine c cur raw = Except.ok (c, cur)) ∧
    (∀ (c : Company) (cur : Option Voucher), stepLine c cur "\x7b" = Except.ok (c, cur)) ∧
    (∀ c : Company, stepLine c none "\x7d" = Except.ok (c, none)) := by
  refine ⟨stepLine_isOk_of_not_risky, ?_, ?_, ?_, ?_⟩
  · intro c raw args hs
    rw [stepLine_of_cmd c none hs rfl, runCmd_TRANS]
    rfl
  · intro c cur raw a0 rest hs hn
    rw [stepLine_of_cmd c cur hs rfl, runCmd_IB]
    simp only [cmdIB, hn]
  · intro c cur
    rfl
  · intro c
    rfl

/-- Claim C2 witness: a concrete unknown command is absorbed. -/
theorem claim_C2_witness : (stepLine emptyCompany none "#FOO 1").isOk = true :=
  claim_C2_theorem.1 emptyCompany none "#FOO 1" (by decide)

/-- Claim C3 counterexample: in the transaction line the token 42 is
numeric but is not the matched amount (-1000.00 is), yet the dimension
tuple comes out empty, so a numeric token other than the matched amount is
not kept as a dimension. -/
theorem claim_C3_counterexample :
    numRe "42" = true ∧
    firstNumber ["1930", "-1000.00", "42"] 1 = some ⟨-1000, 0⟩ ∧
    (parse_text "#VER A 1 20240110 \"x\"\n\x7b\n#TRANS 1930 -1000.00 42\n\x7d").map
      (fun c => c.vouchers.map (fun v => v.transactions.map Transaction.dim)) =
      Except.ok [[none]] :=
  ⟨rfl, rfl, rfl⟩

/-- Claim C4 counterexample: the argument 202411 strips to six digits, not
eight, and yet required-date parsing succeeds (as 2024-01-01), so success
is not limited to exactly eight remaining digits. -/
theorem claim_C4_counterexample :
    ("202411".data.filter isDigitChar).length = 6 ∧
    parse_date "202411" = Except.ok ⟨2024, 1, 1⟩ :=
  ⟨rfl, rfl⟩

/-! ## Claim C8: superseded pending vouchers are discarded -/

theorem stepLine_VER {raw : String} (c : Company) (cur : Option Voucher)
    {args : List String} {v : Voucher}
    (hs : splitCommand (pyStrip raw) = ("#VER", args)) (hv : verVoucher args = Except.ok v) :
    stepLine c cur raw = Except.ok (c, some v) := by
  rw [stepLine_of_cmd c cur hs rfl, runCmd_VER]
  unfold cmdVER
  rw [hv]

/-- Claim C8: a pending voucher whose header is followed by another
voucher header with no closing delimiter line in between is discarded:
processing a valid header line yields the unchanged company with the new
header as the pending voucher, whatever was pending before (so the
superseded voucher is never appended), and the outcome of parsing from a
valid header line onward is entirely independent of the previously
pending voucher, which therefore never reaches the voucher list. -/
theorem claim_C8_theorem :
    (∀ (c : Company) (cur : Option Voucher) (raw : String) (args : List String) (v : Voucher),
      splitCommand (pyStrip raw) = ("#VER", args) → verVoucher args = Except.ok v →
      stepLine c cur raw = Except.ok (c, some v)) ∧
    (∀ (c : Company) (p : Option Voucher) (raw : String) (args : List String) (v : Voucher)
      (rest : List String),
      splitCommand (pyStrip raw) = ("#VER", args) → verVoucher args = Except.ok v →
      parseLinesFrom c p (raw :: rest) = parseLinesFrom c none (raw :: rest)) := by
  refine ⟨fun c cur raw args v hs hv => stepLine_VER c cur hs hv, ?_⟩
  intro c p raw args v rest hs hv
  simp only [parseLinesFrom, stepLine_VER c p hs hv, stepLine_VER c none hs hv]

/-- Claim C8 witness: a concrete pending voucher is superseded by a new
header and the company is untouched. -/
theorem claim_C8_witness :
    stepLine emptyCompany (some ⟨"A", "1", ⟨2024, 1, 1⟩, "", none, []⟩) "#VER B 2 20240202" =
      Except.ok (emptyCompany, some ⟨"B", "2", ⟨2024, 2, 2⟩, "", none, []⟩) :=
  claim_C8_theorem.1 emptyCompany (some ⟨"A", "1", ⟨2024, 1, 1⟩, "", none, []⟩)
    "#VER B 2 20240202" ["B", "2", "20240202"] ⟨"B", "2", ⟨2024, 2, 2⟩, "", none, []⟩ rfl rfl

/-! ## Claim C9: amount selection and missing-number handling -/

theorem firstNum_eq_find (toks : List String) :
    firstNum toks = (toks.find? (fun t => numRe (pyStrip t))).map tokenValue := by
  induction toks with
  | nil => rfl
  | cons t rest ih =>
    by_cases hb : (pyStrip t = "\x7b" ∨ pyStrip t = "\x7d" ∨ pyStrip t = "\x7b\x7d")
    · have hnum : numRe (pyStrip t) = false := by
        rcases hb with h | h | h <;> rw [h] <;> rfl
      have hcond : (decide (pyStrip t = "\x7b") || decide (pyStrip t = "\x7d") ||
          decide (pyStrip t = "\x7b\x7d")) = true := by
        rcases hb with h | h | h <;> simp [h]
      rw [List.find?_cons_of_neg _ (by simp [hnum])]
      simp only [firstNum]
      rw [if_pos hcond]
      exact ih
    · have hcond : ¬((decide (pyStrip t = "\x7b") || decide (pyStrip t = "\x7d") ||
          decide (pyStrip t = "\x7b\x7d")) = true) := by
        simp only [Bool.or_eq_true, decide_eq_true_eq]
        tauto
      by_cases hn : numRe (pyStrip t) = true
      · rw [List.find?_cons_of_pos _ (by simp [hn])]
        simp only [firstNum]
        rw [if_neg hcond, if_pos hn]
        rfl
      · rw [List.find?_cons_of_neg _ (by simp [hn])]
        simp only [firstNum]
        rw [if_neg hcond, if_neg hn]
        exact ih

theorem stepLine_IB_drop {raw : String} (c : Company) (cur : Option Voucher)
    {a0 : String} {rest : List String}
    (hs : splitCommand (pyStrip raw) = ("#IB", a0 :: rest)) (hn : firstNum rest = none) :
    stepLine c cur raw = Except.ok (c, cur) := by
  rw [stepLine_of_cmd c cur hs rfl, runCmd_IB]
  simp only [cmdIB, hn]

theorem stepLine_UB_drop {raw : String} (c : Company) (cur : Option Voucher)
    {a0 : String} {rest : List String}
    (hs : splitCommand (pyStrip raw) = ("#UB", a0 :: rest)) (hn : firstNum rest = none) :
    stepLine c cur raw = Except.ok (c, cur) := by
  rw [stepLine_of_cmd c cur hs rfl, runCmd_UB]
  simp only [cmdUB, hn]

theorem stepLine_TRANS_drop {raw : String} (c : Company) (v : Voucher)
    {a0 : String} {rest : List String}
    (hs : splitCommand (pyStrip raw) = ("#TRANS", a0 :: rest)) (hn : firstNum rest = none) :
    stepLine c (some v) raw = Except.ok (c, some v) := by
  rw [stepLine_of_cmd c (some v) hs rfl, runCmd_TRANS]
  simp only [cmdTRANS, hn]

/-- Claim C9: for balance and transaction commands the amount is the
value of the first token after the account key that matches the
signed-decimal pattern with dot or comma (bracket-noise tokens never
match and are skipped); the concrete opening-balance example parses as
claimed; and with an account key but no matching token the IB, UB or
in-voucher TRANS command is dropped with the state unchanged. -/
theorem claim_C9_theorem :
    (∀ toks : List String,
      firstNum toks = (toks.find? (fun t => numRe (pyStrip t))).map tokenValue) ∧
    (parse_text "#IB 1930 \x7b\x7d 10000,00" =
      Except.ok { accounts := [("1930", { number := "1930", opening_balance := some ⟨10000, 0⟩ })] }) ∧
    (∀ (c : Company) (cur : Option Voucher) (raw a0 : String) (rest : List String),
      splitCommand (pyStrip raw) = ("#IB", a0 :: rest) → firstNum rest = none →
      stepLine c cur raw = Except.ok (c, cur)) ∧
    (∀ (c : Company) (cur : Option Voucher) (raw a0 : String) (rest : List String),
      splitCommand (pyStrip raw) = ("#UB", a0 :: rest) → firstNum rest = none →
      stepLine c cur raw = Except.ok (c, cur)) ∧
    (∀ (c : Company) (v : Voucher) (raw a0 : String) (rest : List String),
      splitCommand (pyStrip raw) = ("#TRANS", a0 :: rest) → firstNum rest = none →
      stepLine c (some v) raw = Except.ok (c, some v)) :=
  ⟨firstNum_eq_find, rfl,
    fun c cur _ _ _ hs hn => stepLine_IB_drop c cur hs hn,
    fun c cur _ _ _ hs hn => stepLine_UB_drop c cur hs hn,
    fun c v _ _ _ hs hn => stepLine_TRANS_drop c v hs hn⟩

/-- Claim C9 witness: a concrete UB command with no numeric token is
dropped and the state is unchanged. -/
theorem claim_C9_witness :
    stepLine emptyCompany none "#UB 1930 xx \x7b\x7d" = Except.ok (emptyCompany, none) :=
  claim_C9_theorem.2.2.2.1 emptyCompany none "#UB 1930 xx \x7b\x7d" "1930" ["xx", "\x7b\x7d"]
    rfl rfl

/-! ## Claim C3 (amended): the dimension tuple -/

/-- Claim C3 (amended): for a TRANS command processed with a pending
voucher and a matched amount, the appended transaction carries the
account key, the matched amount, as note the first quoted token after the
account key, and as dimensions exactly those tokens after the account key
that match neither the numeric pattern (whether or not they are the
matched amount token) nor are quoted nor bracket-noise, verbatim and in
order (absent when the collection is empty). -/
theorem claim_C3_theorem :
    (∀ (c : Company) (v : Voucher) (raw a0 : String) (rest : List String) (amt : Dec),
      splitCommand (pyStrip raw) = ("#TRANS", a0 :: rest) → firstNum rest = some amt →
      stepLine c (some v) raw = Except.ok (c, some { v with transactions := v.transactions ++
        [⟨a0, amt, if dimsFilter rest = [] then none else some (dimsFilter rest),
          (rest.find? (fun t => isQuoted t)).map stripQuotes⟩] })) ∧
    (∀ (rest : List String) (t : String), t ∈ dimsFilter rest →
      numRe t = false ∧ isQuoted t = false ∧ t ≠ "\x7b" ∧ t ≠ "\x7d" ∧ t ≠ "\x7b\x7d") := by
  constructor
  · intro c v raw a0 rest amt hs hn
    rw [stepLine_of_cmd c (some v) hs rfl, runCmd_TRANS]
    simp only [cmdTRANS, hn]
  · intro rest t ht
    have := List.of_mem_filter ht
    simp only [Bool.and_eq_true, Bool.not_eq_true', decide_eq_true_eq] at this
    exact ⟨this.1.1.1.1, this.1.1.1.2, this.1.1.2, this.1.2, this.2⟩

/-- Claim C3 witness: a concrete transaction keeps the unquoted
non-numeric token as its only dimension and takes the first quoted token
as its note. -/
theorem claim_C3_witness :
    stepLine emptyCompany (some ⟨"A", "1", ⟨2024, 1, 1⟩, "", none, []⟩)
        "#TRANS 1930 -1000.00 \"n\" X" =
      Except.ok (emptyCompany, some ⟨"A", "1", ⟨2024, 1, 1⟩, "", none,
        [⟨"1930", ⟨-1000, 0⟩, some ["X"], some "n"⟩]⟩) :=
  claim_C3_theorem.1 emptyCompany ⟨"A", "1", ⟨2024, 1, 1⟩, "", none, []⟩
    "#TRANS 1930 -1000.00 \"n\" X" "1930" ["-1000.00", "\"n\"", "X"] ⟨-1000, 0⟩ rfl rfl

/-! ## Claim C10: unterminated quoted runs -/

theorem takeWhile_ne_of_not_mem {q : Char} : ∀ (l : List Char), q ∉ l →
    l.takeWhile (fun x => x ≠ q) = l := by
  intro l hq
  induction l with
  | nil => rfl
  | cons x t ih =>
    have hx : (x ≠ q) := fun he => hq (he ▸ List.mem_cons_self x t)
    rw [List.takeWhile_cons, if_pos (by simpa using hx),
      ih (fun hm => hq (List.mem_cons_of_mem x hm))]

theorem splitArgsGo_quote {q : Char} (fuel : Nat) (tail : List Char)
    (hq : q = '"' ∨ q = '\'') (hnm : q ∉ tail) :
    splitArgsGo (fuel + 1) (q :: tail) = [String.mk (q :: (tail ++ [q]))] := by
  have hsp : pyIsSpace q = false := by rcases hq with h | h <;> rw [h] <;> rfl
  have hqq : (q = '"' || q = '\'') = true := by rcases hq with h | h <;> rw [h] <;> rfl
  simp only [splitArgsGo, hsp, Bool.false_eq_true, if_false, hqq, if_true,
    takeWhile_ne_of_not_mem tail hnm]
  rw [List.drop_length]
  simp only [List.drop_nil, List.nil_append]
  cases fuel <;> rfl

theorem splitArgsGo_spaces : ∀ (ws : List Char) (fuel : Nat) (rest : List Char),
    (∀ x ∈ ws, pyIsSpace x = true) →
    splitArgsGo (ws.length + fuel) (ws ++ rest) = splitArgsGo fuel rest := by
  intro ws
  induction ws with
  | nil =>
    intro fuel rest _
    simp
  | cons x t ih =>
    intro fuel rest hws
    have hx : pyIsSpace x = true := hws x (List.mem_cons_self x t)
    have hlen : (x :: t).length + fuel = (t.length + fuel) + 1 := by
      simp [List.length_cons]
      omega
    rw [hlen]
    simp only [List.cons_append, splitArgsGo, hx, if_true]
    exact ih fuel rest (fun y hy => hws y (List.mem_cons_of_mem x hy))

/-- Claim C10: when the tokenizer reaches an opening quote (single or
double) and no matching closing quote occurs before the end of the line,
tokenization still succeeds: the run from the opening quote to the end of
the line becomes one single token with a synthesized closing quote
appended, and that token is treated as quoted by the unquoting
predicate. -/
theorem claim_C10_theorem :
    ∀ (ws tail : List Char) (q : Char),
      (∀ x ∈ ws, pyIsSpace x = true) → (q = '"' ∨ q = '\'') → q ∉ tail →
      splitArgs (ws ++ q :: tail) = [String.mk (q :: (tail ++ [q]))] ∧
      isQuoted (String.mk (q :: (tail ++ [q]))) = true := by
  intro ws tail q hws hq hnm
  constructor
  · unfold splitArgs
    have hlen : (ws ++ q :: tail).length = ws.length + (tail.length + 1) := by
      simp [List.length_append]
    rw [hlen, splitArgsGo_spaces ws (tail.length + 1) (q :: tail) hws]
    exact splitArgsGo_quote tail.length tail hq hnm
  · have hqq : (q = '"' || q = '\'') = true := by rcases hq with h | h <;> rw [h] <;> rfl
    unfold isQuoted
    cases htl : tail ++ [q] with
    | nil => exact absurd htl (by simp)
    | cons b r =>
      simp only [← htl, hqq, Bool.true_and]
      rw [show (q :: (tail ++ [q])).getLast? = some q by
        rw [← List.cons_append, List.getLast?_concat]]
      simp

/-- Claim C10 witness: a concrete remainder with an unterminated double
quote becomes one quoted token. -/
theorem claim_C10_witness :
    splitArgs ([' '] ++ '"' :: "ab c".data) =
      [String.mk ('"' :: ("ab c".data ++ ['"']))] ∧
    isQuoted (String.mk ('"' :: ("ab c".data ++ ['"']))) = true :=
  claim_C10_theorem [' '] "ab c".data '"' (by decide) (Or.inl rfl) (by decide)

/-! ## Claim C7: the encoding resolver -/

theorem decode_exhaust (data : List Nat) : ∀ (encs : List Encoding),
    (∀ f ∈ encs, f.decode data = none) →
    decode_with_guess data encs = (latin1Replace data, "latin1-replace") := by
  intro encs h
  induction encs with
  | nil => rfl
  | cons e rest ih =>
    simp only [decode_with_guess, h e (List.mem_cons_self e rest)]
    exact ih (fun f hf => h f (List.mem_cons_of_mem e hf))

/-- Claim C7 counterexample: with the single candidate named
latin1-replace (an unknown codec name, whose decode attempt always fails
and is absorbed by the resolver's bare except), every candidate fails and
the fallback label equals that candidate's name, so the fallback label is
not distinct from every candidate encoding name. -/
theorem claim_C7_counterexample :
    (decode_with_guess [] [⟨"latin1-replace", fun _ => none⟩]).2 = "latin1-replace" ∧
    "latin1-replace" ∈
      ([⟨"latin1-replace", fun _ => none⟩] : List Encoding).map Encoding.name :=
  ⟨rfl, by simp⟩

/-- Claim C7 (amended): decoding tries the candidates strictly in order
and returns the text of the first encoding that decodes without error
together with that encoding's name; if every candidate fails it never
raises but returns the permissive latin-1 replacement decoding tagged
with the fixed label latin1-replace, and that label is distinct from
every candidate encoding name whenever no candidate is itself named
latin1-replace (as in the default candidate list). -/
theorem claim_C7_theorem :
    (∀ (data : List Nat) (pre post : List Encoding) (e : Encoding) (t : String),
      (∀ f ∈ pre, f.decode data = none) → e.decode data = some t →
      decode_with_guess data (pre ++ e :: post) = (t, e.name)) ∧
    (∀ (data : List Nat) (encs : List Encoding),
      (∀ f ∈ encs, f.decode data = none) →
      decode_with_guess data encs = (latin1Replace data, "latin1-replace") ∧
      ((∀ f ∈ encs, f.name ≠ "latin1-replace") →
        ∀ f ∈ encs, (decode_with_guess data encs).2 ≠ f.name)) := by
  constructor
  · intro data pre post e t hpre he
    induction pre with
    | nil => simp only [List.nil_append, decode_with_guess, he]
    | cons f rest ih =>
      simp only [List.cons_append, decode_with_guess,
        hpre f (List.mem_cons_self f rest)]
      exact ih (fun g hg => hpre g (List.mem_cons_of_mem f hg))
  · intro data encs h
    refine ⟨decode_exhaust data encs h, ?_⟩
    intro hn f hf
    rw [decode_exhaust data encs h]
    exact fun he => hn f hf he.symm

/-- Claim C7 witness: with a failing first candidate and a succeeding
second, the second candidate's text and name are returned. -/
theorem claim_C7_witness :
    decode_with_guess [65] [⟨"utf-8", fun _ => none⟩, ⟨"cp865", fun _ => some "A"⟩] =
      ("A", "cp865") :=
  claim_C7_theorem.1 [65] [⟨"utf-8", fun _ => none⟩] [] ⟨"cp865", fun _ => some "A"⟩ "A"
    (by intro f hf; rw [List.mem_singleton] at hf; rw [hf]) rfl

/-! ## Claim C4 (amended): required-date parsing -/

theorem daysInMonth_le (y m : Nat) : daysInMonth y m ≤ 31 := by
  unfold daysInMonth
  split_ifs <;> omega

theorem isDigitChar_bounds {c : Char} (h : isDigitChar c = true) :
    48 ≤ c.toNat ∧ c.toNat ≤ 57 := by
  simpa [isDigitChar, Bool.and_eq_true, decide_eq_true_eq] using h

theorem dAlts_two {d1 d2 : Char} (h1 : isDigitChar d1 = true) (h2 : isDigitChar d2 = true)
    (hlo : 1 ≤ 10 * digitVal d1 + digitVal d2)
    (hhi : 10 * digitVal d1 + digitVal d2 ≤ 31) :
    dAlts [d1, d2] = some (10 * digitVal d1 + digitVal d2, []) := by
  have hb1 := isDigitChar_bounds h1
  have hb2 := isDigitChar_bounds h2
  have hv1 : digitVal d1 = d1.toNat - 48 := rfl
  have hv2 : digitVal d2 = d2.toNat - 48 := rfl
  rw [hv1, hv2] at hlo hhi ⊢
  have hc1 : d1.toNat = 48 ∨ d1.toNat = 49 ∨ d1.toNat = 50 ∨ d1.toNat = 51 := by omega
  rcases hc1 with h | h | h | h
  · have hn2 : 49 ≤ d2.toNat := by omega
    simp only [dAlts, h]
    simp [hn2, hb2.2]
    omega
  · simp only [dAlts, h]
    simp [h2]
    simp only [digitVal]
    omega
  · simp only [dAlts, h]
    simp [h2]
    simp only [digitVal]
    omega
  · have hn2 : d2.toNat = 48 ∨ d2.toNat = 49 := by omega
    rcases hn2 with hh | hh <;>
      · simp only [dAlts, h, hh]
        simp
        omega

theorem mdMatch_two {m1 m2 : Char} {rest : List Char} {r : Nat × List Char}
    (h1 : isDigitChar m1 = true) (h2 : isDigitChar m2 = true)
    (hlo : 1 ≤ 10 * digitVal m1 + digitVal m2)
    (hhi : 10 * digitVal m1 + digitVal m2 ≤ 12)
    (hd : dAlts rest = some r) :
    mdMatch (m1 :: m2 :: rest) = some (10 * digitVal m1 + digitVal m2, r.1, r.2) := by
  have hb1 := isDigitChar_bounds h1
  have hb2 := isDigitChar_bounds h2
  have hv1 : digitVal m1 = m1.toNat - 48 := rfl
  have hv2 : digitVal m2 = m2.toNat - 48 := rfl
  rw [hv1, hv2] at hlo hhi ⊢
  have hc1 : m1.toNat = 48 ∨ m1.toNat = 49 := by omega
  rcases hc1 with h | h
  · have hn2 : 49 ≤ m2.toNat := by omega
    unfold mdMatch
    simp only [mAlts, h]
    simp [hn2, hb2.2, List.findSome?, hd]
    omega
  · have hn2 : m2.toNat ≤ 50 := by omega
    unfold mdMatch
    simp only [mAlts, h]
    simp [hn2, hb2.1, List.findSome?, hd]
    omega

/-- Claim C4 (amended): required-date parsing strips all non-digit
characters; an 8-digit remainder forming a valid calendar date (year at
least one, month one to twelve, day within the month) parses to exactly
that date, but success is not limited to 8-digit remainders: a 6- or
7-digit remainder can also succeed (2024117 parses as 2024-11-07), and
an 8-digit remainder that is no valid calendar date fails (20240230). -/
theorem claim_C4_theorem :
    (∀ (s : String) (y1 y2 y3 y4 m1 m2 d1 d2 : Char),
      s.data.filter isDigitChar = [y1, y2, y3, y4, m1, m2, d1, d2] →
      1 ≤ natOfDigits [y1, y2, y3, y4] →
      1 ≤ 10 * digitVal m1 + digitVal m2 → 10 * digitVal m1 + digitVal m2 ≤ 12 →
      1 ≤ 10 * digitVal d1 + digitVal d2 →
      10 * digitVal d1 + digitVal d2 ≤
        daysInMonth (natOfDigits [y1, y2, y3, y4]) (10 * digitVal m1 + digitVal m2) →
      parse_date s = Except.ok ⟨natOfDigits [y1, y2, y3, y4],
        10 * digitVal m1 + digitVal m2, 10 * digitVal d1 + digitVal d2⟩) ∧
    (parse_date "2024117" = Except.ok ⟨2024, 11, 7⟩ ∧
      parse_date "20240230" = Except.error (PyErr.valueError "day is out of range for month")) := by
  refine ⟨?_, rfl, rfl⟩
  intro s y1 y2 y3 y4 m1 m2 d1 d2 hf hy hm1 hm2 hd1 hd2
  have hdig : ∀ c ∈ [y1, y2, y3, y4, m1, m2, d1, d2], isDigitChar c = true := by
    intro c hc
    have hmem : c ∈ s.data.filter isDigitChar := by rw [hf]; exact hc
    exact (List.mem_filter.mp hmem).2
  have g1 := hdig y1 (by simp)
  have g2 := hdig y2 (by simp)
  have g3 := hdig y3 (by simp)
  have g4 := hdig y4 (by simp)
  have g5 := hdig m1 (by simp)
  have g6 := hdig m2 (by simp)
  have g7 := hdig d1 (by simp)
  have g8 := hdig d2 (by simp)
  have hdle : 10 * digitVal d1 + digitVal d2 ≤ 31 :=
    le_trans hd2 (daysInMonth_le _ _)
  unfold parse_date
  rw [hf]
  simp only [strptimeYmd, g1, g2, g3, g4, Bool.and_self, if_true,
    mdMatch_two g5 g6 hm1 hm2 (dAlts_two g7 g8 hd1 hdle)]
  rw [if_pos ⟨hy, hd2⟩]

/-- Claim C4 witness: a concrete valid 8-digit date parses as that
calendar date. -/
theorem claim_C4_witness :
    parse_date "2024-01-10" = Except.ok ⟨2024, 1, 10⟩ :=
  claim_C4_theorem.1 "2024-01-10" '2' '0' '2' '4' '0' '1' '1' '0' rfl (by decide)
    (by decide) (by decide) (by decide) (by decide)

/-! ## Association-list lemmas for the hierarchy builder -/

theorem map_eq_self_of {α : Type} {f : α → α} {l : List α} (h : ∀ e ∈ l, f e = e) :
    l.map f = l := by
  induction l with
  | nil => rfl
  | cons x t ih =>
    rw [List.map_cons, h x (List.mem_cons_self x t),
      ih (fun e he => h e (List.mem_cons_of_mem x he))]

theorem keysOf_cons (e : String × Account) (m : AList) :
    keysOf (e :: m) = e.1 :: keysOf m := rfl

theorem dget_some_mem {m : AList} {k : String} {a : Account} (h : dget m k = some a) :
    (k, a) ∈ m := by
  induction m with
  | nil => exact absurd h (by simp [dget])
  | cons e t ih =>
    by_cases he : e.1 = k
    · rw [dget, if_pos he] at h
      have : e = (k, a) := by
        cases e
        simp only [Option.some.injEq] at h
        simp_all
      rw [← this]
      exact List.mem_cons_self e t
    · rw [dget, if_neg he] at h
      exact List.mem_cons_of_mem e (ih h)

theorem mem_keys_of_dget {m : AList} {k : String} {a : Account} (h : dget m k = some a) :
    k ∈ keysOf m :=
  List.mem_map.mpr ⟨(k, a), dget_some_mem h, rfl⟩

theorem dget_some_of_mem_keys {m : AList} {k : String} (h : k ∈ keysOf m) :
    ∃ a, dget m k = some a := by
  induction m with
  | nil => exact absurd h (by simp [keysOf])
  | cons e t ih =>
    by_cases he : e.1 = k
    · exact ⟨e.2, by rw [dget, if_pos he]⟩
    · rw [keysOf_cons, List.mem_cons] at h
      rcases h with h | h
      · exact absurd h.symm he
      · obtain ⟨a, ha⟩ := ih h
        exact ⟨a, by rw [dget, if_neg he, ha]⟩

theorem dget_none_of_not_mem_keys {m : AList} {k : String} (h : k ∉ keysOf m) :
    dget m k = none := by
  induction m with
  | nil => rfl
  | cons e t ih =>
    rw [keysOf_cons, List.mem_cons] at h
    push_neg at h
    rw [dget, if_neg (fun he => h.1 he.symm)]
    exact ih h.2

theorem dget_of_mem_nodup {m : AList} (hnd : (keysOf m).Nodup) {e : String × Account}
    (he : e ∈ m) : dget m e.1 = some e.2 := by
  induction m with
  | nil => exact absurd he (by simp)
  | cons f t ih =>
    rw [keysOf_cons, List.nodup_cons] at hnd
    rcases List.mem_cons.mp he with h | h
    · rw [h, dget, if_pos rfl]
    · have hne : f.1 ≠ e.1 := by
        intro hfe
        exact hnd.1 (hfe ▸ List.mem_map.mpr ⟨e, h, rfl⟩)
      rw [dget, if_neg hne]
      exact ih hnd.2 h

theorem dget_dset (m : AList) (k : String) (v : Account) (j : String) :
    dget (dset m k v) j = if j = k then some v else dget m j := by
  induction m with
  | nil =>
    by_cases hj : j = k
    · rw [if_pos hj]
      show (if k = j then some v else dget [] j) = some v
      rw [if_pos hj.symm]
    · rw [if_neg hj]
      show (if k = j then some v else dget [] j) = dget [] j
      rw [if_neg (fun h : k = j => hj h.symm)]
  | cons e t ih =>
    by_cases he : e.1 = k
    · by_cases hj : j = k
      · simp [dset, dget, he, hj]
      · rw [dset, if_pos he, dget, if_neg (fun h => hj h.symm), if_neg hj, dget,
          if_neg (fun h => hj (by rw [← h, he]))]
    · rw [dset, if_neg he]
      by_cases hj : e.1 = j
      · rw [dget, if_pos hj, if_neg (fun h => he (hj.trans h)), dget, if_pos hj]
      · rw [dget, if_neg hj, ih, dget, if_neg hj]

theorem keysOf_dset {m : AList} {k : String} (v : Account) (hk : k ∈ keysOf m) :
    keysOf (dset m k v) = keysOf m := by
  induction m with
  | nil => exact absurd hk (by simp [keysOf])
  | cons e t ih =>
    by_cases he : e.1 = k
    · rw [dset, if_pos he, keysOf_cons, keysOf_cons, he]
    · rw [keysOf_cons, List.mem_cons] at hk
      rcases hk with h | h
      · exact absurd h.symm he
      · rw [dset, if_neg he, keysOf_cons, keysOf_cons, ih h]

theorem mem_dset_iff {m : AList} (hnd : (keysOf m).Nodup) {k : String} (hk : k ∈ keysOf m)
    (v : Account) (e : String × Account) :
    e ∈ dset m k v ↔ (e = (k, v) ∨ (e ∈ m ∧ e.1 ≠ k)) := by
  induction m with
  | nil => exact absurd hk (by simp [keysOf])
  | cons f t ih =>
    rw [keysOf_cons, List.nodup_cons] at hnd
    by_cases hf : f.1 = k
    · rw [dset, if_pos hf, List.mem_cons]
      constructor
      · rintro (h | h)
        · exact Or.inl h
        · refine Or.inr ⟨List.mem_cons_of_mem f h, ?_⟩
          intro hek
          exact hnd.1 (hf ▸ hek ▸ List.mem_map.mpr ⟨e, h, rfl⟩)
      · rintro (h | ⟨hm, hne⟩)
        · exact Or.inl h
        · rcases List.mem_cons.mp hm with h | h
          · exact absurd (h ▸ hf) hne
          · exact Or.inr h
    · rw [keysOf_cons, List.mem_cons] at hk
      rcases hk with h | h
      · exact absurd h.symm hf
      · rw [dset, if_neg hf, List.mem_cons, ih hnd.2 h, List.mem_cons]
        constructor
        · rintro (hh | hh | hh)
          · refine Or.inr ⟨Or.inl hh, ?_⟩
            intro hek
            exact hf (hh ▸ hek)
          · exact Or.inl hh
          · exact Or.inr ⟨Or.inr hh.1, hh.2⟩
        · rintro (hh | ⟨hh | hh, hne⟩)
          · exact Or.inr (Or.inl hh)
          · exact Or.inl hh
          · exact Or.inr (Or.inr ⟨hh, hne⟩)

theorem candScan_eq_none {K : List String} {num : String} :
    ∀ {ps : List String}, candScan K num ps = none →
      ∀ p ∈ ps, ¬(p ∈ K ∧ p ≠ num) := by
  intro ps
  induction ps with
  | nil => intro _ p hp; exact absurd hp (by simp)
  | cons q rest ih =>
    intro h p hp
    by_cases hq : q ∈ K ∧ q ≠ num
    · rw [candScan, if_pos hq] at h
      exact absurd h (by simp)
    · rw [candScan, if_neg hq] at h
      rcases List.mem_cons.mp hp with he | he
      · exact he ▸ hq
      · exact ih h p he

theorem candScan_eq_some {K : List String} {num : String} :
    ∀ {ps : List String} {p : String}, candScan K num ps = some p →
      p ∈ K ∧ p ≠ num := by
  intro ps
  induction ps with
  | nil => intro p h; exact absurd h (by simp [candScan])
  | cons q rest ih =>
    intro p h
    by_cases hq : q ∈ K ∧ q ≠ num
    · rw [candScan, if_pos hq] at h
      simp only [Option.some.injEq] at h
      exact h ▸ hq
    · rw [candScan, if_neg hq] at h
      exact ih h

theorem account_eta_parent_none {a : Account} (h : a.parent = none) :
    { a with parent := none } = a := by
  cases a
  simp only at h
  rw [h]

/-! ## The tryAssign loop -/

theorem tryAssign_none {m : AList} {K : List String} (hK : keysOf m = K) {num : String} :
    ∀ {ps : List String}, (∀ p ∈ ps, ¬(p ∈ K ∧ p ≠ num)) → tryAssign m num ps = m := by
  intro ps
  induction ps with
  | nil => intro _; rfl
  | cons q rest ih =>
    intro h
    have hrest := fun p hp => h p (List.mem_cons_of_mem q hp)
    cases hq : dget m q with
    | none =>
      simp only [tryAssign, hq]
      exact ih hrest
    | some par =>
      have hqK : q ∈ K := hK ▸ mem_keys_of_dget hq
      have hqnum : q = num := by
        by_contra hne
        exact h q (List.mem_cons_self q rest) ⟨hqK, hne⟩
      cases hacc : dget m num with
      | none =>
        simp only [tryAssign, hq, hacc]
        exact ih hrest
      | some acc =>
        simp only [tryAssign, hq, hacc]
        rw [if_neg (fun hc => hc.1 hqnum)]
        exact ih hrest

theorem tryAssign_found {m : AList} {K : List String} (hK : keysOf m = K)
    {num p : String} {acc par : Account}
    (hacc : dget m num = some acc) (haccp : acc.parent = none)
    (hpar : dget m p = some par) (hnc : num ∉ par.children) :
    ∀ {ps : List String}, candScan K num ps = some p →
      tryAssign m num ps = dset (dset m num { acc with parent := some p }) p
        { par with children := par.children ++ [num] } := by
  intro ps
  induction ps with
  | nil => intro h; exact absurd h (by simp [candScan])
  | cons q rest ih =>
    intro h
    by_cases hq : q ∈ K ∧ q ≠ num
    · rw [candScan, if_pos hq] at h
      have hqp : q = p := by simpa using h
      subst hqp
      simp only [tryAssign, hpar, hacc]
      rw [if_pos ⟨hq.2, haccp⟩, if_neg hnc]
    · rw [candScan, if_neg hq] at h
      cases hdq : dget m q with
      | none =>
        simp only [tryAssign, hdq]
        exact ih h
      | some parq =>
        have hqK : q ∈ K := hK ▸ mem_keys_of_dget hdq
        have hqnum : q = num := by
          by_contra hne
          exact hq ⟨hqK, hne⟩
        simp only [tryAssign, hdq, hacc]
        rw [if_neg (fun hc => hc.1 hqnum)]
        exact ih h

/-! ## The invariant of the hierarchy builder's main loop -/

theorem hierStep_inv {K done : List String} {m : AList} (num : String)
    (hnd : K.Nodup) (hinv : HierInv K done m) (hmem : num ∈ K) (hndone : num ∉ done) :
    HierInv K (done ++ [num]) (hierStep m num) := by
  obtain ⟨hK, hpar, hch⟩ := hinv
  have noop : candParent K num = none → HierInv K (done ++ [num]) m := by
    intro hcand
    refine ⟨hK, ?_, ?_⟩
    · intro e he
      rw [hpar e he]
      by_cases hd : e.1 ∈ done
      · rw [if_pos hd, if_pos (List.mem_append_left _ hd)]
      · rw [if_neg hd]
        by_cases hn : e.1 ∈ done ++ [num]
        · have heq : e.1 = num := by
            rcases List.mem_append.mp hn with h | h
            · exact absurd h hd
            · simpa using h
          rw [if_pos hn, heq, hcand]
        · rw [if_neg hn]
    · intro e he
      rw [hch e he, List.filter_append]
      have hf : List.filter (fun c => candParent K c = some e.1) [num] = [] := by
        simp [hcand]
      rw [hf, List.append_nil]
  by_cases hskip : (!isPyDigitStr num || num.length = 1) = true
  · have hcand : candParent K num = none := by
      unfold candParent
      rw [if_neg]
      simp only [Bool.or_eq_true, Bool.not_eq_true', decide_eq_true_eq] at hskip
      rintro ⟨h1, h2⟩
      rcases hskip with h | h
      · rw [h1] at h
        exact absurd h (by simp)
      · omega
    unfold hierStep
    rw [if_pos hskip]
    exact noop hcand
  · unfold hierStep
    rw [if_neg hskip]
    simp only [Bool.or_eq_true, Bool.not_eq_true', decide_eq_true_eq] at hskip
    push_neg at hskip
    have hdig : isPyDigitStr num = true := by
      cases hval : isPyDigitStr num
      · exact absurd hval hskip.1
      · rfl
    have hlen2 : 2 ≤ num.length := by
      have hne : num.data ≠ [] := by
        unfold isPyDigitStr at hdig
        simp only [Bool.and_eq_true] at hdig
        simpa using hdig.1
      have hlp : 0 < num.data.length := List.length_pos.mpr hne
      have h1 : 1 ≤ num.length := hlp
      have h2 := hskip.2
      omega
    have hcond : isPyDigitStr num = true ∧ 2 ≤ num.length := ⟨hdig, hlen2⟩
    cases hcand : candScan K num (prefsOf num) with
    | none =>
      have hcp : candParent K num = none := by
        unfold candParent
        rw [if_pos hcond, hcand]
      rw [tryAssign_none hK (candScan_eq_none hcand)]
      exact noop hcp
    | some p =>
      have hcp : candParent K num = some p := by
        unfold candParent
        rw [if_pos hcond, hcand]
      obtain ⟨hpK, hpnum⟩ := candScan_eq_some hcand
      obtain ⟨acc, hacc⟩ := dget_some_of_mem_keys (show num ∈ keysOf m by rw [hK]; exact hmem)
      have haccp : acc.parent = none := by
        have hmem2 : (num, acc) ∈ m := dget_some_mem hacc
        have := hpar (num, acc) hmem2
        simpa [hndone] using this
      obtain ⟨par, hpar2⟩ := dget_some_of_mem_keys (show p ∈ keysOf m by rw [hK]; exact hpK)
      have hparch : par.children = done.filter (fun c => candParent K c = some p) :=
        hch (p, par) (dget_some_mem hpar2)
      have hparpar : par.parent = (if p ∈ done then candParent K p else none) :=
        hpar (p, par) (dget_some_mem hpar2)
      have haccch : acc.children = done.filter (fun c => candParent K c = some num) :=
        hch (num, acc) (dget_some_mem hacc)
      have hnc : num ∉ par.children := by
        rw [hparch]
        intro hmemf
        exact hndone (List.mem_of_mem_filter hmemf)
      rw [tryAssign_found hK hacc haccp hpar2 hnc hcand]
      have hndm : (keysOf m).Nodup := by rw [hK]; exact hnd
      have hmemm : num ∈ keysOf m := by rw [hK]; exact hmem
      have hpm : p ∈ keysOf m := by rw [hK]; exact hpK
      have hkeys1 : keysOf (dset m num { acc with parent := some p }) = keysOf m :=
        keysOf_dset _ hmemm
      have hnd1 : (keysOf (dset m num { acc with parent := some p })).Nodup := by
        rw [hkeys1]; exact hndm
      have hpm1 : p ∈ keysOf (dset m num { acc with parent := some p }) := by
        rw [hkeys1]; exact hpm
      refine ⟨?_, ?_, ?_⟩
      · rw [keysOf_dset _ hpm1, hkeys1, hK]
      · intro e he
        rw [mem_dset_iff hnd1 hpm1 _ _] at he
        rcases he with he | ⟨he, hep⟩
        · rw [he]
          show par.parent = (if p ∈ done ++ [num] then candParent K p else none)
          rw [hparpar]
          by_cases hd : p ∈ done
          · rw [if_pos hd, if_pos (List.mem_append_left _ hd)]
          · rw [if_neg hd, if_neg]
            intro hn
            rcases List.mem_append.mp hn with h | h
            · exact hd h
            · exact hpnum (by simpa using h)
        · rw [mem_dset_iff hndm hmemm _ _] at he
          rcases he with he | ⟨he, hen⟩
          · rw [he]
            show some p = (if num ∈ done ++ [num] then candParent K num else none)
            rw [if_pos (List.mem_append_right _ (by simp)), hcp]
          · rw [hpar e he]
            by_cases hd : e.1 ∈ done
            · rw [if_pos hd, if_pos (List.mem_append_left _ hd)]
            · rw [if_neg hd, if_neg]
              intro hn
              rcases List.mem_append.mp hn with h | h
              · exact hd h
              · exact hen (by simpa using h)
      · intro e he
        rw [mem_dset_iff hnd1 hpm1 _ _] at he
        rcases he with he | ⟨he, hep⟩
        · rw [he]
          show par.children ++ [num] =
            (done ++ [num]).filter (fun c => candParent K c = some p)
          rw [List.filter_append, hparch]
          have hf : List.filter (fun c => candParent K c = some p) [num] = [num] := by
            simp [hcp]
          rw [hf]
        · rw [mem_dset_iff hndm hmemm _ _] at he
          rcases he with he | ⟨he, hen⟩
          · rw [he]
            show acc.children = (done ++ [num]).filter (fun c => candParent K c = some num)
            rw [List.filter_append, haccch]
            have hf : List.filter (fun c => candParent K c = some num) [num] = [] := by
              simp [hcp]
              exact fun h => hpnum h
            rw [hf, List.append_nil]
          · rw [hch e he, List.filter_append]
            have hf : List.filter (fun c => candParent K c = some e.1) [num] = [] := by
              have hne : ¬(candParent K num = some e.1) := by
                rw [hcp]
                intro h
                exact hep (Option.some.inj h).symm
              simp [hne]
            rw [hf, List.append_nil]

theorem hier_fold_inv {K : List String} (hnd : K.Nodup) :
    ∀ (todo done : List String) (m : AList), done ++ todo = K → HierInv K done m →
      HierInv K K (todo.foldl hierStep m) := by
  intro todo
  induction todo with
  | nil =>
    intro done m hsplit hinv
    rw [List.foldl_nil]
    rw [List.append_nil] at hsplit
    rw [hsplit] at hinv
    exact hinv
  | cons num rest ih =>
    intro done m hsplit hinv
    rw [List.foldl_cons]
    refine ih (done ++ [num]) _ ?_ ?_
    · rw [List.append_assoc]
      simpa using hsplit
    · have hmem : num ∈ K := by
        rw [← hsplit]
        exact List.mem_append_right _ (List.mem_cons_self _ _)
      have hndone : num ∉ done := by
        have h2 : (done ++ num :: rest).Nodup := by rw [hsplit]; exact hnd
        rw [List.nodup_append] at h2
        intro hmem2
        exact h2.2.2 hmem2 (List.mem_cons_self _ _)
      exact hierStep_inv num hnd hinv hmem hndone

theorem keysOf_forceRoots (m : AList) : keysOf (forceRoots m) = keysOf m := by
  unfold forceRoots
  induction m with
  | nil => rfl
  | cons e t ih =>
    rw [List.map_cons, keysOf_cons, keysOf_cons, ih]
    congr 1
    by_cases hc : (isPyDigitStr e.1 && e.1.length = 1) = true
    · rw [if_pos hc]
    · rw [if_neg hc]

theorem forceRoots_mem {m : AList} {e : String × Account} (he : e ∈ forceRoots m) :
    ∃ e0 ∈ m, e.1 = e0.1 ∧
      ((isPyDigitStr e0.1 && e0.1.length = 1) = true ∧ e.2 = { e0.2 with parent := none } ∨
        ¬((isPyDigitStr e0.1 && e0.1.length = 1) = true) ∧ e.2 = e0.2) := by
  unfold forceRoots at he
  obtain ⟨e0, he0, heq⟩ := List.mem_map.mp he
  refine ⟨e0, he0, ?_⟩
  by_cases hc : (isPyDigitStr e0.1 && e0.1.length = 1) = true
  · rw [if_pos hc] at heq
    exact ⟨by rw [← heq], Or.inl ⟨hc, by rw [← heq]⟩⟩
  · rw [if_neg hc] at heq
    exact ⟨by rw [← heq], Or.inr ⟨hc, by rw [← heq]⟩⟩

/-- Claim C5: on a completed account map (distinct keys, no links yet)
the hierarchy builder keeps the key set, assigns to every account as
parent its first matching candidate prefix (longest to shortest, present
in the map and not the account itself) with none for unmatched,
single-digit numeric, and non-numeric keys, and gives every account as
children exactly the accounts whose candidate it is, in encounter order;
in particular the four-account example links 1930 and 1931 under 19,
19 under 1, leaves 1 a root, and orders 19's children as 1930 then
1931. -/
theorem claim_C5_theorem :
    (∀ m : AList, (keysOf m).Nodup →
      (∀ e ∈ m, e.2.parent = none ∧ e.2.children = []) →
      keysOf (buildHierarchy m) = keysOf m ∧
      (∀ e ∈ buildHierarchy m, e.2.parent = candParent (keysOf m) e.1) ∧
      (∀ e ∈ buildHierarchy m,
        e.2.children = (keysOf m).filter (fun c => candParent (keysOf m) c = some e.1))) ∧
    (parentAt (buildHierarchy ex4) "1930" = some "19" ∧
      parentAt (buildHierarchy ex4) "19" = some "1" ∧
      parentAt (buildHierarchy ex4) "1" = none ∧
      childrenAt (buildHierarchy ex4) "19" = ["1930", "1931"]) := by
  constructor
  · intro m hnd hinit
    have hinv0 : HierInv (keysOf m) [] m := by
      refine ⟨rfl, ?_, ?_⟩
      · intro e he
        rw [(hinit e he).1]
        simp
      · intro e he
        rw [(hinit e he).2]
        rfl
    have hfold := hier_fold_inv hnd (keysOf m) [] m rfl hinv0
    obtain ⟨hK2, hpar2, hch2⟩ := hfold
    unfold buildHierarchy
    refine ⟨?_, ?_, ?_⟩
    · rw [keysOf_forceRoots, hK2]
    · intro e he
      obtain ⟨e0, he0, hkey, hcase⟩ := forceRoots_mem he
      rcases hcase with ⟨hc, he2⟩ | ⟨hc, he2⟩
      · rw [he2, hkey]
        show (none : Option String) = candParent (keysOf m) e0.1
        have hcn : candParent (keysOf m) e0.1 = none := by
          unfold candParent
          rw [if_neg]
          simp only [Bool.and_eq_true, decide_eq_true_eq] at hc
          rintro ⟨_, hl⟩
          omega
        rw [hcn]
      · rw [he2, hkey, hpar2 e0 he0, if_pos]
        rw [← hK2]
        exact List.mem_map.mpr ⟨e0, he0, rfl⟩
    · intro e he
      obtain ⟨e0, he0, hkey, hcase⟩ := forceRoots_mem he
      have hcc := hch2 e0 he0
      rcases hcase with ⟨_, he2⟩ | ⟨_, he2⟩ <;> rw [he2, hkey] <;> exact hcc
  · exact ⟨rfl, rfl, rfl, rfl⟩

/-- Claim C5 witness: the general statement applied to the concrete
four-account chart. -/
theorem claim_C5_witness :
    keysOf (buildHierarchy ex4) = keysOf ex4 ∧
    (∀ e ∈ buildHierarchy ex4, e.2.parent = candParent (keysOf ex4) e.1) ∧
    (∀ e ∈ buildHierarchy ex4,
      e.2.children = (keysOf ex4).filter (fun c => candParent (keysOf ex4) c = some e.1)) :=
  claim_C5_theorem.1 ex4 (by decide) (by decide)

/-! ## Idempotence of the hierarchy builder -/

theorem tryAssign_keys {m : AList} {num : String} :
    ∀ ps : List String, keysOf (tryAssign m num ps) = keysOf m := by
  intro ps
  induction ps with
  | nil => rfl
  | cons q rest ih =>
    cases hdq : dget m q with
    | none =>
      simp only [tryAssign, hdq]
      exact ih
    | some par =>
      cases hacc : dget m num with
      | none =>
        simp only [tryAssign, hdq, hacc]
        exact ih
      | some acc =>
        simp only [tryAssign, hdq, hacc]
        by_cases hcnd : q ≠ num ∧ acc.parent = none
        · rw [if_pos hcnd]
          have hmemn : num ∈ keysOf m := mem_keys_of_dget hacc
          have hmemq : q ∈ keysOf m := mem_keys_of_dget hdq
          by_cases hmemc : num ∈ par.children
          · rw [if_pos hmemc, keysOf_dset _ hmemn]
          · rw [if_neg hmemc, keysOf_dset _ (by rw [keysOf_dset _ hmemn]; exact hmemq),
              keysOf_dset _ hmemn]
        · rw [if_neg hcnd]
          exact ih

theorem hierStep_keys (m : AList) (num : String) :
    keysOf (hierStep m num) = keysOf m := by
  unfold hierStep
  by_cases hskip : (!isPyDigitStr num || num.length = 1) = true
  · rw [if_pos hskip]
  · rw [if_neg hskip]
    exact tryAssign_keys _

theorem fold_keys : ∀ (ks : List String) (m : AList),
    keysOf (ks.foldl hierStep m) = keysOf m := by
  intro ks
  induction ks with
  | nil => intro m; rfl
  | cons q rest ih =>
    intro m
    rw [List.foldl_cons, ih, hierStep_keys]

theorem tryAssign_parent_mono {m : AList} {num k : String} (h : parentAt m k ≠ none) :
    ∀ ps : List String, parentAt (tryAssign m num ps) k ≠ none := by
  intro ps
  induction ps with
  | nil => exact h
  | cons q rest ih =>
    cases hdq : dget m q with
    | none =>
      simp only [tryAssign, hdq]
      exact ih
    | some par =>
      cases hacc : dget m num with
      | none =>
        simp only [tryAssign, hdq, hacc]
        exact ih
      | some acc =>
        simp only [tryAssign, hdq, hacc]
        by_cases hcnd : q ≠ num ∧ acc.parent = none
        · rw [if_pos hcnd]
          by_cases hmemc : num ∈ par.children
          · rw [if_pos hmemc]
            unfold parentAt at h ⊢
            rw [dget_dset]
            by_cases hk : k = num
            · rw [if_pos hk]
              simp
            · rw [if_neg hk]
              exact h
          · rw [if_neg hmemc]
            unfold parentAt at h ⊢
            rw [dget_dset]
            by_cases hkq : k = q
            · rw [if_pos hkq]
              rw [hkq, hdq] at h
              simpa using h
            · rw [if_neg hkq, dget_dset]
              by_cases hk : k = num
              · rw [if_pos hk]
                simp
              · rw [if_neg hk]
                exact h
        · rw [if_neg hcnd]
          exact ih

theorem hierStep_parent_mono {m : AList} (num : String) {k : String}
    (h : parentAt m k ≠ none) : parentAt (hierStep m num) k ≠ none := by
  unfold hierStep
  by_cases hskip : (!isPyDigitStr num || num.length = 1) = true
  · rw [if_pos hskip]
    exact h
  · rw [if_neg hskip]
    exact tryAssign_parent_mono h _

theorem fold_parent_mono : ∀ (ks : List String) (m : AList) (k : String),
    parentAt m k ≠ none → parentAt (ks.foldl hierStep m) k ≠ none := by
  intro ks
  induction ks with
  | nil => intro m k h; exact h
  | cons q rest ih =>
    intro m k h
    rw [List.foldl_cons]
    exact ih _ k (hierStep_parent_mono q h)

theorem tryAssign_assigns {m : AList} {num p : String} {acc : Account}
    (hacc : dget m num = some acc) (haccp : acc.parent = none) :
    ∀ {ps : List String}, candScan (keysOf m) num ps = some p →
      parentAt (tryAssign m num ps) num = some p := by
  intro ps
  induction ps with
  | nil => intro h; exact absurd h (by simp [candScan])
  | cons q rest ih =>
    intro h
    by_cases hq : q ∈ keysOf m ∧ q ≠ num
    · rw [candScan, if_pos hq] at h
      have hqp : q = p := by simpa using h
      subst hqp
      obtain ⟨parp, hdp⟩ := dget_some_of_mem_keys hq.1
      simp only [tryAssign, hdp, hacc]
      rw [if_pos ⟨hq.2, haccp⟩]
      by_cases hmemc : num ∈ parp.children
      · rw [if_pos hmemc]
        unfold parentAt
        rw [dget_dset, if_pos rfl]
        rfl
      · rw [if_neg hmemc]
        unfold parentAt
        rw [dget_dset, if_neg (fun hh => hq.2 hh.symm), dget_dset, if_pos rfl]
        rfl
    · rw [candScan, if_neg hq] at h
      cases hdq : dget m q with
      | none =>
        simp only [tryAssign, hdq]
        exact ih h
      | some parq =>
        have hqnum : q = num := by
          by_contra hne
          exact hq ⟨mem_keys_of_dget hdq, hne⟩
        simp only [tryAssign, hdq, hacc]
        rw [if_neg (fun hc => hc.1 hqnum)]
        exact ih h

theorem hierStep_parent_est {m : AList} {num : String} (hdig : isPyDigitStr num = true)
    (hlen : 2 ≤ num.length) (hcand : candParent (keysOf m) num ≠ none)
    (hmemk : num ∈ keysOf m) :
    parentAt (hierStep m num) num ≠ none := by
  have hskip : ¬((!isPyDigitStr num || num.length = 1) = true) := by
    simp [hdig]
    omega
  unfold hierStep
  rw [if_neg hskip]
  obtain ⟨acc, hacc⟩ := dget_some_of_mem_keys hmemk
  by_cases hap : acc.parent = none
  · cases hcs : candScan (keysOf m) num (prefsOf num) with
    | none =>
      refine absurd ?_ hcand
      unfold candParent
      rw [if_pos ⟨hdig, hlen⟩, hcs]
    | some p =>
      rw [tryAssign_assigns hacc hap hcs]
      simp
  · apply tryAssign_parent_mono
    unfold parentAt
    rw [hacc]
    simpa using hap

theorem fold_established : ∀ (todo : List String) (m : AList),
    (∀ x ∈ todo, x ∈ keysOf m) →
    ∀ num ∈ todo, isPyDigitStr num = true → 2 ≤ num.length →
      candParent (keysOf m) num ≠ none →
      parentAt (todo.foldl hierStep m) num ≠ none := by
  intro todo
  induction todo with
  | nil => intro m _ num hmem; exact absurd hmem (by simp)
  | cons q rest ih =>
    intro m hsub num hmem hdig hlen hcand
    rw [List.foldl_cons]
    have hkeys : keysOf (hierStep m q) = keysOf m := hierStep_keys m q
    rcases List.mem_cons.mp hmem with he | he
    · subst he
      exact fold_parent_mono rest _ num
        (hierStep_parent_est hdig hlen hcand (hsub num (List.mem_cons_self _ _)))
    · refine ih (hierStep m q) ?_ num he hdig hlen ?_
      · intro x hx
        rw [hkeys]
        exact hsub x (List.mem_cons_of_mem q hx)
      · rw [hkeys]
        exact hcand

theorem forceRoots_stableRoots (m : AList) : StableRoots (forceRoots m) := by
  intro e he hc
  obtain ⟨e0, he0, hkey, hcase⟩ := forceRoots_mem he
  rcases hcase with ⟨_, he2⟩ | ⟨hc0, _⟩
  · rw [he2]
  · rw [hkey] at hc
    exact absurd hc hc0

theorem buildHierarchy_stableRoots (m : AList) : StableRoots (buildHierarchy m) :=
  forceRoots_stableRoots _

theorem keysOf_buildHierarchy (m : AList) : keysOf (buildHierarchy m) = keysOf m := by
  unfold buildHierarchy
  rw [keysOf_forceRoots, fold_keys]

theorem dget_forceRoots (m : AList) (k : String) :
    dget (forceRoots m) k = (dget m k).map
      (fun a => if (isPyDigitStr k && k.length = 1) = true then { a with parent := none }
        else a) := by
  induction m with
  | nil => rfl
  | cons e t ih =>
    show dget
      ((if (isPyDigitStr e.1 && e.1.length = 1) = true then (e.1, { e.2 with parent := none })
        else e) :: forceRoots t) k = _
    by_cases hek : e.1 = k
    · by_cases hc : (isPyDigitStr e.1 && e.1.length = 1) = true
      · rw [if_pos hc, dget, if_pos hek, dget, if_pos hek]
        rw [hek] at hc
        simp [hc]
      · rw [if_neg hc, dget, if_pos hek, dget, if_pos hek]
        rw [hek] at hc
        simp [hc]
    · by_cases hc : (isPyDigitStr e.1 && e.1.length = 1) = true
      · rw [if_pos hc, dget, if_neg hek, ih, dget, if_neg hek]
      · rw [if_neg hc, dget, if_neg hek, ih, dget, if_neg hek]

theorem buildHierarchy_stableAssigned {m : AList} (hnd : (keysOf m).Nodup) :
    StableAssigned (buildHierarchy m) := by
  intro e he hdig hlen hcand
  have hkeysf : keysOf ((keysOf m).foldl hierStep m) = keysOf m := fold_keys _ m
  rw [keysOf_buildHierarchy] at hcand
  unfold buildHierarchy at he
  obtain ⟨e0, he0, hkey, hcase⟩ := forceRoots_mem he
  have hc1 : ¬((isPyDigitStr e0.1 && e0.1.length = 1) = true) := by
    simp only [Bool.and_eq_true, decide_eq_true_eq]
    rintro ⟨_, hl⟩
    rw [← hkey] at hl
    omega
  rcases hcase with ⟨hc, _⟩ | ⟨_, he2⟩
  · exact absurd hc hc1
  · rw [he2]
    have hmemk : e0.1 ∈ keysOf m := by
      rw [← hkeysf]
      exact List.mem_map.mpr ⟨e0, he0, rfl⟩
    have hest := fold_established (keysOf m) m (fun x hx => hx) e0.1 hmemk
      (hkey ▸ hdig) (hkey ▸ hlen) (hkey ▸ hcand)
    have hndf : (keysOf ((keysOf m).foldl hierStep m)).Nodup := by
      rw [hkeysf]
      exact hnd
    have hdg := dget_of_mem_nodup hndf he0
    intro hpn
    apply hest
    unfold parentAt
    rw [hdg]
    simpa using hpn

theorem candScan_ne_none {K : List String} {num q : String} (hqK : q ∈ K) (hqn : q ≠ num) :
    ∀ {ps : List String}, q ∈ ps → candScan K num ps ≠ none := by
  intro ps
  induction ps with
  | nil => intro h; exact absurd h (by simp)
  | cons x rest ih =>
    intro hmem hnone
    by_cases hx : x ∈ K ∧ x ≠ num
    · rw [candScan, if_pos hx] at hnone
      exact absurd hnone (by simp)
    · rw [candScan, if_neg hx] at hnone
      rcases List.mem_cons.mp hmem with h | h
      · exact hx (h ▸ ⟨hqK, hqn⟩)
      · exact ih h hnone

theorem buildHierarchy_stable {m : AList} (hsa : StableAssigned m) (hsr : StableRoots m) :
    buildHierarchy m = m := by
  have hstep : ∀ num, hierStep m num = m := by
    intro num
    by_cases hskip : (!isPyDigitStr num || num.length = 1) = true
    · unfold hierStep
      rw [if_pos hskip]
    · unfold hierStep
      rw [if_neg hskip]
      simp only [Bool.or_eq_true, Bool.not_eq_true', decide_eq_true_eq] at hskip
      push_neg at hskip
      have hdig : isPyDigitStr num = true := by
        cases hval : isPyDigitStr num
        · exact absurd hval hskip.1
        · rfl
      have hlen2 : 2 ≤ num.length := by
        have hne : num.data ≠ [] := by
          unfold isPyDigitStr at hdig
          simp only [Bool.and_eq_true] at hdig
          simpa using hdig.1
        have hlp : 0 < num.data.length := List.length_pos.mpr hne
        have h1 : 1 ≤ num.length := hlp
        have h2 := hskip.2
        omega
      have hgen : ∀ ps : List String, (∀ x ∈ ps, x ∈ prefsOf num) →
          tryAssign m num ps = m := by
        intro ps
        induction ps with
        | nil => intro _; rfl
        | cons q rest ih =>
          intro hsub
          have hrest := fun x hx => hsub x (List.mem_cons_of_mem q hx)
          cases hdq : dget m q with
          | none =>
            simp only [tryAssign, hdq]
            exact ih hrest
          | some par =>
            cases hacc : dget m num with
            | none =>
              simp only [tryAssign, hdq, hacc]
              exact ih hrest
            | some acc =>
              simp only [tryAssign, hdq, hacc]
              rw [if_neg]
              · exact ih hrest
              · by_cases hqn : q = num
                · exact fun hc => hc.1 hqn
                · have hcand : candParent (keysOf m) num ≠ none := by
                    unfold candParent
                    rw [if_pos ⟨hdig, hlen2⟩]
                    exact candScan_ne_none (mem_keys_of_dget hdq) hqn
                      (hsub q (List.mem_cons_self _ _))
                  have hpar := hsa (num, acc) (dget_some_mem hacc) hdig hlen2
                    (by rw [keysOf] at hcand ⊢; exact hcand)
                  exact fun hc => hpar hc.2
      exact hgen (prefsOf num) (fun x hx => hx)
  have hfold : ∀ ks : List String, ks.foldl hierStep m = m := by
    intro ks
    induction ks with
    | nil => rfl
    | cons q rest ih =>
      rw [List.foldl_cons, hstep q]
      exact ih
  unfold buildHierarchy
  rw [hfold]
  apply map_eq_self_of
  intro e he
  by_cases hc : (isPyDigitStr e.1 && e.1.length = 1) = true
  · rw [if_pos hc]
    obtain ⟨k, a⟩ := e
    have hp := hsr (k, a) he hc
    simp only at hp ⊢
    rw [account_eta_parent_none hp]
  · rw [if_neg hc]

/-- Claim C6: running the hierarchy-building pass a second time on its
own output changes nothing: every parent link and child list (indeed the
whole account map) is identical after the second run. -/
theorem claim_C6_theorem : ∀ m : AList, (keysOf m).Nodup →
    buildHierarchy (buildHierarchy m) = buildHierarchy m := by
  intro m hnd
  exact buildHierarchy_stable (buildHierarchy_stableAssigned hnd)
    (buildHierarchy_stableRoots m)

/-- Claim C6 witness: idempotence on the concrete four-account chart. -/
theorem claim_C6_witness :
    buildHierarchy (buildHierarchy ex4) = buildHierarchy ex4 :=
  claim_C6_theorem ex4 (by decide)

end SIE4
